import Mathlib

set_option maxRecDepth 65536

/-!
# Verification development for the fileTree repository

Shallow embedding of the secure file-access layer of the repository:
`helpers.js` (`sanitizePath`, `isValidFileName`, `getMimeType`, `parseMultipart`,
`parseHeaders`) and `fileService.js` (`resolvePath`, `listFiles`, `renameFile`,
`deleteFile`, `downloadFile`, `uploadFile`, `createFolder`).

The server is Node.js; paths are modelled with POSIX (`path.posix`) semantics,
the platform the service runs on. Strings are modelled via their character
lists; byte buffers as `List Nat` (each element a byte value). The filesystem
is modelled as an association list from absolute path strings to nodes.
-/

/-- `true` for the two characters the sanitizer's regexes treat as path
separators (`[\/\\]` character class). -/
def isSepChar (c : Char) : Bool := c = '/' || c = '\\'

/-- Split a character list at `'/'`, keeping empty segments (as
`String.prototype.split('/')` does). Never returns `[]`. -/
def splitSlash : List Char → List (List Char)
  | [] => [[]]
  | '/' :: rest => [] :: splitSlash rest
  | c :: rest =>
    match splitSlash rest with
    | [] => [[c]]
    | h :: t => (c :: h) :: t

/-- Core of Node's `path.posix.normalize` segment processing
(`normalizeString`): skip empty and `.` segments; on `..` pop the last kept
segment unless it is itself `..`; at the bottom, keep `..` only when
`allowAbove` (relative paths). The first argument is the reversed stack of
kept segments. -/
def normalizeSegs (allowAbove : Bool) : List (List Char) → List (List Char) → List (List Char)
  | stack, [] => stack.reverse
  | stack, seg :: rest =>
    if seg = [] ∨ seg = ['.'] then normalizeSegs allowAbove stack rest
    else if seg = ['.', '.'] then
      match stack with
      | top :: stack' =>
        if top = ['.', '.'] then normalizeSegs allowAbove (seg :: top :: stack') rest
        else normalizeSegs allowAbove stack' rest
      | [] =>
        if allowAbove then normalizeSegs allowAbove [seg] rest
        else normalizeSegs allowAbove [] rest
    else normalizeSegs allowAbove (seg :: stack) rest

/-- Join segments with `'/'` (no leading or trailing separator). -/
def joinSegs : List (List Char) → List Char
  | [] => []
  | [s] => s
  | s :: rest => s ++ '/' :: joinSegs rest

/-- Model of Node `path.posix.normalize`: resolves `.`/`..` segments,
collapses repeated `'/'`, preserves a trailing separator, returns `"."` for
the empty path. Backslash is an ordinary character on POSIX. -/
def posixNormalize (p : String) : String :=
  if p.data = [] then "." else
  let isAbs := p.data.head? = some '/'
  let trailing := p.data.getLast? = some '/'
  let core := joinSegs (normalizeSegs (!isAbs) [] (splitSlash p.data))
  if core = [] then
    (if isAbs then "/" else if trailing then "./" else ".")
  else
    ⟨(if isAbs then '/' :: core else core) ++ (if trailing then ['/'] else [])⟩

/-- Model of Node `path.posix.join` restricted to two arguments (the only
arity the sources use): concatenate the non-empty arguments with `'/'` and
normalize; both empty gives `"."`. -/
def posixJoin (a b : String) : String :=
  if a.data = [] && b.data = [] then "."
  else if a.data = [] then posixNormalize b
  else if b.data = [] then posixNormalize a
  else posixNormalize ⟨a.data ++ '/' :: b.data⟩

/-- The last path component: characters after the last `'/'`, ignoring
trailing separators (shared core of Node `path.posix.basename` and
`path.posix.extname`). -/
def lastComponent (p : String) : List Char :=
  ((p.data.reverse.dropWhile (· = '/')).takeWhile (· ≠ '/')).reverse

/-- Model of Node `path.posix.basename` (one-argument form). -/
def basename (p : String) : String := ⟨lastComponent p⟩

/-- The extension of one path component: its suffix from the last dot;
empty when there is no dot, when the only dot is the first character
(dotfiles), or when the component is `".."`. -/
def extOfComponent (base : List Char) : String :=
  if base = ['.', '.'] then "" else
  match base.reverse.findIdx? (· = '.') with
  | none => ""
  | some k =>
    if base.length - 1 - k = 0 then "" else ⟨base.drop (base.length - 1 - k)⟩

/-- Model of Node `path.posix.extname`. -/
def extname (p : String) : String := extOfComponent (lastComponent p)

/-- Model of Node `path.posix.basename(p, ext)`: the last component with the
suffix `ext` removed when it is a proper suffix of the component. -/
def basenameExt (p ext : String) : String :=
  let base := lastComponent p
  if ext.data ≠ [] ∧ ext.data.isSuffixOf base ∧ base ≠ ext.data
  then ⟨base.take (base.length - ext.data.length)⟩ else ⟨base⟩

/-- Model of Node `path.posix.dirname`: everything before the last component
(trailing separators ignored), `"."` when there is no directory part, `"/"`
for root-level paths. -/
def dirname (p : String) : String :=
  if p.data = [] then "." else
  if ((p.data.reverse.dropWhile (· = '/')).dropWhile (· ≠ '/')).length ≤ 1 then
    (if p.data.head? = some '/' then "/" else ".")
  else if p.data.head? = some '/' ∧
      ((p.data.reverse.dropWhile (· = '/')).dropWhile (· ≠ '/')).length = 2 then "//"
  else ⟨p.data.take ((((p.data.reverse.dropWhile (· = '/')).dropWhile (· ≠ '/'))).length - 1)⟩

/-- `helpers.sanitizePath`, first regex: strip any leading repetition of
`..` followed by a separator (`^(\.\.[\/\\])+`). -/
def stripLeadingDotDotSep : List Char → List Char
  | '.' :: '.' :: c :: rest =>
    if isSepChar c then stripLeadingDotDotSep rest else '.' :: '.' :: c :: rest
  | l => l

/-- `helpers.sanitizePath`, second regex: global left-to-right,
non-overlapping replacement of separator-`..`-separator
(`[\/\\]\.\.[\/\\]`) by a single `'/'`. -/
def replaceSepDotDotSep : List Char → List Char
  | a :: '.' :: '.' :: b :: rest =>
    if isSepChar a ∧ isSepChar b then '/' :: replaceSepDotDotSep rest
    else a :: replaceSepDotDotSep ('.' :: '.' :: b :: rest)
  | a :: rest => a :: replaceSepDotDotSep rest
  | [] => []

/-- `helpers.sanitizePath`: normalize, strip leading `../` repetitions,
collapse embedded separator-`..`-separator, strip leading separators. -/
def sanitizePath (userPath : String) : String :=
  if userPath.data = [] then "" else
  ⟨((stripLeadingDotDotSep (posixNormalize userPath).data)
      |> replaceSepDotDotSep).dropWhile isSepChar⟩

/-- The service's root directory. In the source `ROOT_DIR =
path.join(__dirname, 'files')`; `__dirname` is deployment state, modelled
here as the representative server directory `/app/server`. -/
def ROOT_DIR : String := "/app/server/files"

/-- `fileService.resolvePath`: sanitize, join onto the root, normalize, and
require the root as a string prefix; `none` models the thrown
`AccessDenied` error. -/
def resolvePath (relativePath : String) : Option String :=
  if ROOT_DIR.data.isPrefixOf
      (posixNormalize (posixJoin ROOT_DIR (sanitizePath relativePath))).data
  then some (posixNormalize (posixJoin ROOT_DIR (sanitizePath relativePath)))
  else none

/-- A resolved path is at or below the root directory when it is the root
itself or extends it past a separator (string-prefix alone is not enough:
`/app/server/files2` has `/app/server/files` as a string prefix but is a
sibling, not a descendant). -/
def atOrBelowRoot (p : String) : Bool :=
  p = ROOT_DIR || (ROOT_DIR.data ++ ['/']).isPrefixOf p.data

/-! ## Name validation (`helpers.isValidFileName`) -/

/-- The forbidden-character class of `helpers.isValidFileName`:
`[<>:"|?*\x00-\x1f]`. -/
def isInvalidNameChar (c : Char) : Bool :=
  c.toNat < 0x20 || c = '<' || c = '>' || c = ':' || c = '"' ||
  c = '|' || c = '?' || c = '*'

/-- ASCII lower-casing (`String.prototype.toLowerCase` on the ASCII inputs
this system compares). -/
def asciiLower (c : Char) : Char :=
  if 'A' ≤ c ∧ c ≤ 'Z' then Char.ofNat (c.toNat + 32) else c

/-- Model of the reserved-name regex
`^(con|prn|aux|nul|com[1-9]|lpt[1-9])$/i`. -/
def isReservedName (s : String) : Bool :=
  let l := s.data.map asciiLower
  l = "con".data || l = "prn".data || l = "aux".data || l = "nul".data ||
  (match l with
   | [a, b, c, d] => ([a, b, c] = "com".data || [a, b, c] = "lpt".data) &&
       ('1' ≤ d && d ≤ '9')
   | _ => false)

/-- `helpers.isValidFileName`: rejects the empty string (falsy guard),
over-long names, forbidden characters, Windows reserved device names
(checked on the name with its extension stripped), and all-dot names.
JS string length is modelled as character count (all compared data here is
ASCII). -/
def isValidFileName (filename : String) : Bool :=
  if filename.data = [] then false
  else if filename.data.length = 0 ∨ 255 < filename.data.length then false
  else if filename.data.any isInvalidNameChar then false
  else if isReservedName (basenameExt filename (extname filename)) then false
  else if filename.data.all (· = '.') then false
  else true

/-! ## MIME types (`helpers.getMimeType`) -/

/-- The extension table of `helpers.getMimeType`. -/
def mimeTypes : List (String × String) :=
  [(".txt", "text/plain"), (".html", "text/html"), (".css", "text/css"),
   (".js", "application/javascript"), (".json", "application/json"),
   (".xml", "application/xml"), (".csv", "text/csv"),
   (".jpg", "image/jpeg"), (".jpeg", "image/jpeg"), (".png", "image/png"),
   (".gif", "image/gif"), (".bmp", "image/bmp"), (".webp", "image/webp"),
   (".svg", "image/svg+xml"), (".ico", "image/x-icon"),
   (".pdf", "application/pdf"), (".doc", "application/msword"),
   (".docx", "application/vnd.openxmlformats-officedocument.wordprocessingml.document"),
   (".xls", "application/vnd.ms-excel"),
   (".xlsx", "application/vnd.openxmlformats-officedocument.spreadsheetml.sheet"),
   (".ppt", "application/vnd.ms-powerpoint"),
   (".pptx", "application/vnd.openxmlformats-officedocument.presentationml.presentation"),
   (".zip", "application/zip"), (".rar", "application/x-rar-compressed"),
   (".7z", "application/x-7z-compressed"), (".tar", "application/x-tar"),
   (".gz", "application/gzip"),
   (".mp3", "audio/mpeg"), (".wav", "audio/wav"), (".ogg", "audio/ogg"),
   (".mp4", "video/mp4"), (".avi", "video/x-msvideo"),
   (".mov", "video/quicktime"), (".wmv", "video/x-ms-wmv"),
   (".ttf", "font/ttf"), (".woff", "font/woff"), (".woff2", "font/woff2")]

/-- `helpers.getMimeType`: look up the lower-cased extension, defaulting to
`application/octet-stream`. -/
def getMimeType (filename : String) : String :=
  let ext : String := ⟨(extname filename).data.map asciiLower⟩
  match mimeTypes.lookup ext with
  | some m => m
  | none => "application/octet-stream"

/-! ## Locale collation (`String.prototype.localeCompare`)

`listFiles` sorts sibling names with `a.name.localeCompare(b.name)`.
`localeCompare` is the ICU root collation of Node's default build. It is
modelled here for ASCII strings: a primary pass compares case-folded
weights (punctuation, then digits, then letters in base-letter order), and
a tertiary pass breaks full primary ties by case, lowercase first. This
agrees with ICU root on letter/digit data (for example `'a' < 'B'` and
`'a' < 'A'`, where ordinal comparison would give the opposite). -/

/-- Primary collation weight of an ASCII character. -/
def collPrimary (c : Char) : Nat :=
  if 'a' ≤ c ∧ c ≤ 'z' then 1000 + (c.toNat - 'a'.toNat)
  else if 'A' ≤ c ∧ c ≤ 'Z' then 1000 + (c.toNat - 'A'.toNat)
  else if '0' ≤ c ∧ c ≤ '9' then 500 + (c.toNat - '0'.toNat)
  else c.toNat

/-- Tertiary (case) collation weight: lowercase before uppercase. -/
def collTertiary (c : Char) : Nat := if 'A' ≤ c ∧ c ≤ 'Z' then 1 else 0

/-- Lexicographic comparison of weight sequences. -/
def lexNat : List Nat → List Nat → Ordering
  | [], [] => .eq
  | [], _ :: _ => .lt
  | _ :: _, [] => .gt
  | a :: as, b :: bs => if a < b then .lt else if b < a then .gt else lexNat as bs

/-- The collation ordering underlying `localeCompare`: full primary pass,
then full tertiary (case) pass. -/
def collOrd (a b : String) : Ordering :=
  (lexNat (a.data.map collPrimary) (b.data.map collPrimary)).then
  (lexNat (a.data.map collTertiary) (b.data.map collTertiary))

/-- Model of `String.prototype.localeCompare` (see the section comment). -/
def localeCompare (a b : String) : Int :=
  match collOrd a b with
  | .lt => -1
  | .eq => 0
  | .gt => 1

/-- The comparison the spec asserts for sibling names: case-sensitive
ordinal (code-unit) order. Stated from the spec's words, for comparison
with the comparator the code actually uses. -/
def specOrdinalLt (a b : String) : Bool :=
  lexNat (a.data.map Char.toNat) (b.data.map Char.toNat) = .lt

/-! ## Filesystem model -/

/-- A filesystem node: a regular file with its byte content, or a directory
(`size` models the directory's `stat` size). `modified` timestamps are
wall-clock environment state and are omitted — no claim concerns them. -/
inductive FsNode where
  | file (content : List Nat)
  | dir (size : Nat)
deriving DecidableEq, Repr

/-- The filesystem: an association list from absolute path to node (the
first binding wins). -/
abbrev Fs := List (String × FsNode)

/-- Path lookup (`fs.stat` / `fs.access` / `fsSync.existsSync`). -/
def fsGet : Fs → String → Option FsNode
  | [], _ => none
  | (p, n) :: rest, k => if p = k then some n else fsGet rest k

def fsExists (fs : Fs) (p : String) : Bool := (fsGet fs p).isSome

/-- If `p` is a direct child of directory `d`, its entry name. -/
def childName (d p : String) : Option String :=
  if (d.data ++ ['/']).isPrefixOf p.data then
    if p.data.drop (d.data.length + 1) ≠ [] ∧ '/' ∉ p.data.drop (d.data.length + 1)
    then some ⟨p.data.drop (d.data.length + 1)⟩ else none
  else none

/-- Model of `fs.readdir`: names of the direct children of `d`, in
filesystem (association-list) order, without duplicates. -/
def readdirNames (fs : Fs) (d : String) : List String :=
  (fs.filterMap (fun pr => childName d pr.1)).dedup

/-! ## The file-tree service (`fileService.js`) -/

/-- The `type` field of a listed entry; the source only ever constructs the
strings `'file'` and `'directory'`. -/
inductive EntryKind where
  | file
  | directory
deriving DecidableEq, Repr

/-- One listed filesystem object (child entries of a listing carry no
`children`, matching the one-level-deep listing of the source). -/
structure Entry where
  name : String
  path : String
  type : EntryKind
  size : Nat
  extension : Option String
deriving DecidableEq, Repr

/-- The result of `listFiles`: an entry together with, for directories, the
sorted one-level child list. -/
structure Listing where
  name : String
  path : String
  type : EntryKind
  size : Nat
  extension : Option String
  children : Option (List Entry)
deriving DecidableEq, Repr

/-- The sort comparator of `listFiles`:
`a.type === b.type ? a.name.localeCompare(b.name)
                   : (a.type === 'directory' ? -1 : 1)`. -/
def cmpEntries (a b : Entry) : Int :=
  if a.type = b.type then localeCompare a.name b.name
  else if a.type = .directory then -1 else 1

/-- The ordering realised by the stable `Array.prototype.sort` with
comparator `cmpEntries`. -/
def entryLe (a b : Entry) : Prop := cmpEntries a b ≤ 0

instance (a b : Entry) : Decidable (entryLe a b) := by
  unfold entryLe; exact inferInstance

/-- `name = path.basename(absolutePath) || 'files'`. -/
def listEntryName (absolutePath : String) : String :=
  if (basename absolutePath).data = [] then "files" else basename absolutePath

/-- `relPath = relativePath || '/'`. -/
def listRelPath (relativePath : String) : String :=
  if relativePath.data = [] then "/" else relativePath

/-- The child entries of a directory listing, in `readdir` order: entries
whose `stat` fails are silently skipped; directories carry size 0 and no
extension, files their length and extension. -/
def listChildren (fs : Fs) (relativePath absolutePath : String) : List Entry :=
  (readdirNames fs absolutePath).filterMap (fun entry =>
    match fsGet fs (posixJoin absolutePath entry) with
    | none => none
    | some (.dir _) =>
      some { name := entry, path := posixJoin relativePath entry,
             type := .directory, size := 0, extension := none }
    | some (.file c) =>
      some { name := entry, path := posixJoin relativePath entry,
             type := .file, size := c.length, extension := some (extname entry) })

/-- `fileService.listFiles`: resolve, require existence, return a single
entry for files; for directories, list children one level deep and sort
them directories-first, each group by `localeCompare`. `none` models any
thrown error. -/
def listFiles (fs : Fs) (relativePath : String) : Option Listing :=
  match resolvePath relativePath with
  | none => none
  | some absolutePath =>
    match fsGet fs absolutePath with
    | none => none
    | some (.file content) =>
      some { name := listEntryName absolutePath, path := listRelPath relativePath,
             type := .file, size := content.length,
             extension := some (extname (listEntryName absolutePath)),
             children := none }
    | some (.dir dsize) =>
      some { name := listEntryName absolutePath, path := listRelPath relativePath,
             type := .directory, size := dsize, extension := none,
             children :=
               some ((listChildren fs relativePath absolutePath).insertionSort entryLe) }

structure RenameResult where
  oldPath : String
  newPath : String
  newName : String
deriving DecidableEq, Repr

/-- The key rewriting performed by a rename: the moved path itself becomes
`new`, paths inside the moved subtree have the `old` prefix replaced, all
other paths are untouched. -/
def renamePath (old new p : String) : String :=
  if p = old then new
  else if (old.data ++ ['/']).isPrefixOf p.data then
    ⟨new.data ++ p.data.drop old.data.length⟩
  else p

/-- POSIX `rename(2)` on the model: moves `old` and its subtree to `new`;
fails when the destination's parent is missing or not a directory, or when
the destination lies inside the moved subtree. -/
def fsRename (fs : Fs) (old new : String) : Option Fs :=
  if old = new ∨ (old.data ++ ['/']).isPrefixOf new.data then none
  else match fsGet fs (dirname new) with
  | some (.dir _) =>
    some (fs.map (fun pr => (renamePath old new pr.1, pr.2)))
  | _ => none

/-- `fileService.renameFile`. -/
def renameFile (fs : Fs) (oldRelativePath newName : String) :
    Option (Fs × RenameResult) :=
  match resolvePath oldRelativePath with
  | none => none
  | some oldAbsolutePath =>
    if ¬ fsExists fs oldAbsolutePath then none
    else if ¬ isValidFileName newName then none
    else
      let directory := dirname oldAbsolutePath
      let newAbsolutePath := posixJoin directory newName
      if fsExists fs newAbsolutePath then none
      else match fsRename fs oldAbsolutePath newAbsolutePath with
        | none => none
        | some fs' =>
          some (fs', { oldPath := oldRelativePath,
                       newPath := posixJoin (dirname oldRelativePath) newName,
                       newName := newName })

structure DeleteResult where
  path : String
  type : String
deriving DecidableEq, Repr

/-- `fileService.deleteFile`: directories are removed recursively
(`fs.rm {recursive}`), files directly (`fs.unlink`). -/
def deleteFile (fs : Fs) (relativePath : String) : Option (Fs × DeleteResult) :=
  match resolvePath relativePath with
  | none => none
  | some absolutePath =>
    match fsGet fs absolutePath with
    | none => none
    | some (.dir _) =>
      some (fs.filter (fun pr =>
              !(pr.1 == absolutePath ||
                (absolutePath.data ++ ['/']).isPrefixOf pr.1.data)),
            { path := relativePath, type := "directory" })
    | some (.file _) =>
      some (fs.filter (fun pr => !(pr.1 == absolutePath)),
            { path := relativePath, type := "file" })

structure DownloadResult where
  content : List Nat
  fileName : String
  mimeType : String
deriving DecidableEq, Repr

/-- `fileService.downloadFile`. -/
def downloadFile (fs : Fs) (relativePath : String) : Option DownloadResult :=
  match resolvePath relativePath with
  | none => none
  | some absolutePath =>
    match fsGet fs absolutePath with
    | some (.file content) =>
      some { content := content, fileName := basename absolutePath,
             mimeType := getMimeType (basename absolutePath) }
    | _ => none

structure UploadedFile where
  filename : String
  content : List Nat
deriving DecidableEq, Repr

structure UploadResult where
  filename : String
  path : String
  size : Nat
deriving DecidableEq, Repr

/-- `fs.writeFile`: overwrite the binding at `p` or append a new one. -/
def fsWrite : Fs → String → List Nat → Fs
  | [], p, content => [(p, .file content)]
  | (q, n) :: rest, p, content =>
    if q = p then (q, .file content) :: rest else (q, n) :: fsWrite rest p content

/-- The collision name `${nameWithoutExt}_${timestamp}${ext}` built by
`uploadFile` when the destination already exists. -/
def uploadNewFilename (filename : String) (timestamp : Nat) : String :=
  basenameExt filename (extname filename) ++ "_" ++ toString timestamp ++
    extname filename

/-- `fileService.uploadFile`; `timestamp` models `Date.now()`. -/
def uploadFile (fs : Fs) (file : UploadedFile) (targetRelativePath : String)
    (timestamp : Nat) : Option (Fs × UploadResult) :=
  if ¬ isValidFileName file.filename then none
  else match resolvePath targetRelativePath with
  | none => none
  | some targetDir =>
    match fsGet fs targetDir with
    | some (.dir _) =>
      if fsExists fs (posixJoin targetDir file.filename) then
        some (fsWrite fs (posixJoin targetDir (uploadNewFilename file.filename timestamp))
                file.content,
              { filename := uploadNewFilename file.filename timestamp,
                path := posixJoin targetRelativePath (uploadNewFilename file.filename timestamp),
                size := file.content.length })
      else
        some (fsWrite fs (posixJoin targetDir file.filename) file.content,
              { filename := file.filename,
                path := posixJoin targetRelativePath file.filename,
                size := file.content.length })
    | _ => none

structure CreateFolderResult where
  path : String
  name : String
deriving DecidableEq, Repr

/-- `fs.mkdir` (non-recursive): requires the parent directory. -/
def fsMkdir (fs : Fs) (p : String) : Option Fs :=
  match fsGet fs (dirname p) with
  | some (.dir _) => some (fs ++ [(p, .dir 0)])
  | _ => none

/-- `fileService.createFolder`. -/
def createFolder (fs : Fs) (relativePath folderName : String) :
    Option (Fs × CreateFolderResult) :=
  match resolvePath relativePath with
  | none => none
  | some parentDir =>
    let newFolderPath := posixJoin parentDir folderName
    if ¬ isValidFileName folderName then none
    else if fsExists fs newFolderPath then none
    else match fsMkdir fs newFolderPath with
    | none => none
    | some fs' =>
      some (fs', { path := posixJoin relativePath folderName, name := folderName })

/-! ## Byte-level UTF-8 (`Buffer.from` / `Buffer.prototype.toString('utf8')`) -/

/-- U+FFFD, the replacement character. -/
def replChar : Char := Char.ofNat 0xFFFD

/-- UTF-8 decoding of a byte list: standard UTF-8 with U+FFFD on malformed
sequences. All header and field data the claims touch is ASCII, where this
is exact. The `fuel` argument (instantiated with the list length, which
always suffices since every step consumes at least one byte per fuel unit)
only makes the recursion structural. -/
def utf8DecodeAux : Nat → List Nat → List Char
  | 0, _ => []
  | _ + 1, [] => []
  | fuel + 1, b :: rest =>
    if b < 0x80 then Char.ofNat b :: utf8DecodeAux fuel rest
    else if 0xC2 ≤ b ∧ b ≤ 0xDF then
      match rest with
      | b2 :: r2 =>
        if 0x80 ≤ b2 ∧ b2 ≤ 0xBF then
          Char.ofNat ((b - 0xC0) * 64 + (b2 - 0x80)) :: utf8DecodeAux fuel r2
        else replChar :: utf8DecodeAux fuel (b2 :: r2)
      | [] => [replChar]
    else if 0xE0 ≤ b ∧ b ≤ 0xEF then
      match rest with
      | b2 :: b3 :: r3 =>
        if (0x80 ≤ b2 ∧ b2 ≤ 0xBF) ∧ (0x80 ≤ b3 ∧ b3 ≤ 0xBF) then
          let v := (b - 0xE0) * 4096 + (b2 - 0x80) * 64 + (b3 - 0x80)
          if v < 0x800 ∨ (0xD800 ≤ v ∧ v ≤ 0xDFFF) then
            replChar :: utf8DecodeAux fuel r3
          else Char.ofNat v :: utf8DecodeAux fuel r3
        else replChar :: utf8DecodeAux fuel (b2 :: b3 :: r3)
      | _ => [replChar]
    else if 0xF0 ≤ b ∧ b ≤ 0xF4 then
      match rest with
      | b2 :: b3 :: b4 :: r4 =>
        if (0x80 ≤ b2 ∧ b2 ≤ 0xBF) ∧ (0x80 ≤ b3 ∧ b3 ≤ 0xBF) ∧
           (0x80 ≤ b4 ∧ b4 ≤ 0xBF) then
          let v := (b - 0xF0) * 262144 + (b2 - 0x80) * 4096 +
                   (b3 - 0x80) * 64 + (b4 - 0x80)
          if v < 0x10000 ∨ 0x10FFFF < v then replChar :: utf8DecodeAux fuel r4
          else Char.ofNat v :: utf8DecodeAux fuel r4
        else replChar :: utf8DecodeAux fuel (b2 :: b3 :: b4 :: r4)
      | _ => [replChar]
    else replChar :: utf8DecodeAux fuel rest

def utf8DecodeChars (l : List Nat) : List Char := utf8DecodeAux l.length l

def utf8Decode (l : List Nat) : String := ⟨utf8DecodeChars l⟩

/-- UTF-8 encoding of one scalar value. -/
def utf8EncodeChar (c : Char) : List Nat :=
  let n := c.toNat
  if n < 0x80 then [n]
  else if n < 0x800 then [0xC0 + n / 64, 0x80 + n % 64]
  else if n < 0x10000 then [0xE0 + n / 4096, 0x80 + n / 64 % 64, 0x80 + n % 64]
  else [0xF0 + n / 262144, 0x80 + n / 4096 % 64, 0x80 + n / 64 % 64, 0x80 + n % 64]

/-- `Buffer.from(s)`: the UTF-8 bytes of `s`. -/
def strBytes (s : String) : List Nat := (s.data.map utf8EncodeChar).flatten

/-! ## Buffer search (`Buffer.prototype.indexOf`) -/

/-- Does `pat` occur in `hay` at (0-based) index `i`? -/
def occursAt (hay pat : List Nat) (i : Nat) : Bool := pat.isPrefixOf (hay.drop i)

/-- Offset of the first occurrence of `pat` in `l`. -/
def firstOccur (pat : List Nat) : List Nat → Option Nat
  | [] => if pat = [] then some 0 else none
  | c :: rest =>
    if pat.isPrefixOf (c :: rest) then some 0
    else (firstOccur pat rest).map (· + 1)

/-- `buffer.indexOf(pat, start)`, as an absolute index. -/
def idxOfFrom (hay pat : List Nat) (start : Nat) : Option Nat :=
  (firstOccur pat (hay.drop start)).map (· + start)

/-! ## Multipart decoding (`helpers.parseMultipart`, `helpers.parseHeaders`) -/

/-- JS `String.prototype.trim` (ASCII whitespace). -/
def isJsWs (c : Char) : Bool :=
  c = ' ' || c = '\t' || c = '\n' || c = '\r' || c = '\x0b' || c = '\x0c'

def jsTrim (l : List Char) : List Char :=
  ((l.dropWhile isJsWs).reverse.dropWhile isJsWs).reverse

/-- `text.split('\r\n')`. -/
def splitCRLF : List Char → List (List Char)
  | '\r' :: '\n' :: rest => [] :: splitCRLF rest
  | c :: rest =>
    match splitCRLF rest with
    | [] => [[c]]
    | h :: t => (c :: h) :: t
  | [] => [[]]

/-- Overwrite-or-append assignment `obj[key] = value`, keeping first-insertion
key order as JS objects do. -/
def setAssoc : List (String × String) → String → String → List (String × String)
  | [], k, v => [(k, v)]
  | (k', v') :: rest, k, v =>
    if k' = k then (k, v) :: rest else (k', v') :: setAssoc rest k v

def alistGet : List (String × String) → String → Option String
  | [], _ => none
  | (k', v') :: rest, k => if k' = k then some v' else alistGet rest k

/-- `helpers.parseHeaders`: split at CRLF, split each line at its first
colon, trim both parts, lowercase the key; lines without a colon are
skipped. -/
def parseHeaders (text : List Char) : List (String × String) :=
  (splitCRLF text).foldl (fun headers line =>
    match line.findIdx? (· = ':') with
    | none => headers
    | some colonIndex =>
      setAssoc headers ⟨(jsTrim (line.take colonIndex)).map asciiLower⟩
                       ⟨jsTrim (line.drop (colonIndex + 1))⟩) []

/-- Model of the regexes `name="([^"]+)"` and `filename="([^"]+)"`: leftmost
occurrence of the literal `tag` (which ends with the opening quote) followed
by at least one non-quote character and a closing quote; a failed attempt
resumes one character later, as a regex engine does. -/
def regexCapture (tag : List Char) : List Char → Option (List Char)
  | [] => none
  | c :: rest =>
    if tag.isPrefixOf (c :: rest) then
      let after := (c :: rest).drop tag.length
      let cap := after.takeWhile (· ≠ '"')
      if cap ≠ [] ∧ (after.drop cap.length).head? = some '"' then some cap
      else regexCapture tag rest
    else regexCapture tag rest

/-- The `UploadedPart` record pushed onto `result.files`. -/
structure MultipartFile where
  fieldName : String
  filename : String
  contentType : String
  content : List Nat
  size : Nat
deriving DecidableEq, Repr

/-- The result of `parseMultipart`: text fields and file parts. -/
structure MultipartResult where
  fields : List (String × String)
  files : List MultipartFile
deriving DecidableEq, Repr

/-- `buffer.slice(pos, next)`: the bytes of one part. -/
def partSlice (buffer : List Nat) (pos next : Nat) : List Nat :=
  (buffer.take next).drop pos

/-- `partBuffer.slice(headerEndIndex + 4, -2)`: the part body, between the
`CRLF CRLF` separator and the trailing CRLF that precedes the next
delimiter. -/
def partContent (buffer : List Nat) (pos next h : Nat) : List Nat :=
  ((partSlice buffer pos next).take ((partSlice buffer pos next).length - 2)).drop (h + 4)

/-- The parsed headers of the part: the bytes before the `CRLF CRLF`
separator, decoded as UTF-8 and fed to `parseHeaders`. -/
def partHeaders (buffer : List Nat) (pos next h : Nat) : List (String × String) :=
  parseHeaders (utf8DecodeChars ((partSlice buffer pos next).take h))

/-- `headers['content-type'] || 'application/octet-stream'` (the JS `||`
also replaces an empty header value). -/
def contentTypeOf (hs : List (String × String)) : String :=
  match alistGet hs "content-type" with
  | some ct => if ct.data = [] then "application/octet-stream" else ct
  | none => "application/octet-stream"

/-- The scanning loop of `helpers.parseMultipart`. `fuel` bounds the number
of iterations; `none` means the fuel ran out (`parseMultipartLoop_isSome`
shows `buffer.length + 1` fuel never does, since every iteration strictly
advances `position`). `[13, 10]` is CRLF. A part lacking the `CRLF CRLF`
separator, a `Content-Disposition` header (`!disposition` also catches the
empty value) or a `name="…"` token is skipped with `continue`, which leaves
`position` at `newlineIndex + 2`. -/
def parseMultipartLoop (buffer bnd : List Nat) :
    Nat → Nat → MultipartResult → Option MultipartResult
  | 0, _, _ => none
  | fuel + 1, position, acc =>
    if position < buffer.length then
      match idxOfFrom buffer bnd position with
      | none => some acc
      | some boundaryIndex =>
        match idxOfFrom buffer [13, 10] (boundaryIndex + bnd.length) with
        | none => some acc
        | some newlineIndex =>
          match idxOfFrom buffer bnd (newlineIndex + 2) with
          | none => some acc
          | some nextBoundaryIndex =>
            match idxOfFrom (partSlice buffer (newlineIndex + 2) nextBoundaryIndex)
                [13, 10, 13, 10] 0 with
            | none => parseMultipartLoop buffer bnd fuel (newlineIndex + 2) acc
            | some headerEndIndex =>
              match alistGet (partHeaders buffer (newlineIndex + 2) nextBoundaryIndex
                  headerEndIndex) "content-disposition" with
              | none => parseMultipartLoop buffer bnd fuel (newlineIndex + 2) acc
              | some disposition =>
                if disposition.data = [] then
                  parseMultipartLoop buffer bnd fuel (newlineIndex + 2) acc
                else
                  match regexCapture "name=\"".data disposition.data with
                  | none => parseMultipartLoop buffer bnd fuel (newlineIndex + 2) acc
                  | some fieldName =>
                    match regexCapture "filename=\"".data disposition.data with
                    | some filename =>
                      parseMultipartLoop buffer bnd fuel nextBoundaryIndex
                        { acc with files := acc.files ++
                            [{ fieldName := ⟨fieldName⟩, filename := ⟨filename⟩,
                               contentType := contentTypeOf (partHeaders buffer
                                 (newlineIndex + 2) nextBoundaryIndex headerEndIndex),
                               content := partContent buffer (newlineIndex + 2)
                                 nextBoundaryIndex headerEndIndex,
                               size := (partContent buffer (newlineIndex + 2)
                                 nextBoundaryIndex headerEndIndex).length }] }
                    | none =>
                      parseMultipartLoop buffer bnd fuel nextBoundaryIndex
                        { acc with fields :=
                            (setAssoc acc.fields ⟨fieldName⟩ (utf8Decode
                              (partContent buffer (newlineIndex + 2)
                                nextBoundaryIndex headerEndIndex))) }
    else some acc

/-- `helpers.parseMultipart`: scan for `'--' + boundary` delimiters and
collect fields and files. -/
def parseMultipart (buffer : List Nat) (boundary : String) : MultipartResult :=
  (parseMultipartLoop buffer (strBytes ("--" ++ boundary)) (buffer.length + 1) 0
    { fields := [], files := [] }).getD { fields := [], files := [] }

/-! ## Concrete filesystems for the rename/delete round-trip -/

/-- A root with directory `d` holding file `c` and directory `a`. -/
def c7fs : Fs :=
  [(ROOT_DIR, .dir 0),
   (ROOT_DIR ++ "/d", .dir 0),
   (ROOT_DIR ++ "/d/c", .file [49]),
   (ROOT_DIR ++ "/d/a", .dir 0)]

/-- A root with directory `d` holding the single file `c`. -/
def c7wfs : Fs :=
  [(ROOT_DIR, .dir 0),
   (ROOT_DIR ++ "/d", .dir 0),
   (ROOT_DIR ++ "/d/c", .file [49])]

/-! ## Concrete inputs used by the claim theorems -/

/-- A filesystem in which the root has a sibling directory whose name
extends the root's last component (`files2` next to `files`). -/
def escapeFs : Fs :=
  [(ROOT_DIR, .dir 0), ("/app/server/files2", .dir 0),
   ("/app/server/files2/secret", .file [7])]

/-- The multipart payload of the C5 example: boundary `XYZ`, one text field
`path=docs`, one file part `files` / `a.txt` / body `hello`, closing
delimiter. -/
def c5Buffer : List Nat :=
  strBytes ("--XYZ\r\nContent-Disposition: form-data; name=\"path\"\r\n\r\ndocs" ++
            "\r\n--XYZ\r\nContent-Disposition: form-data; name=\"files\"; " ++
            "filename=\"a.txt\"\r\n\r\nhello\r\n--XYZ--")

/-- A listing whose directory contains the files `B.txt` and `a.txt`. -/
def caseFs : Fs :=
  [(ROOT_DIR, .dir 0), (ROOT_DIR ++ "/B.txt", .file [1]),
   (ROOT_DIR ++ "/a.txt", .file [2])]

/-- The children `listFiles` returns for `caseFs`. -/
def caseChildren : List Entry :=
  match listFiles caseFs "" with
  | some l => l.children.getD []
  | none => []

/-- The directory of the spec's ordering example: `b.txt`, a subdirectory
`A`, and `a.txt`. -/
def exampleFs : Fs :=
  [(ROOT_DIR, .dir 4096), (ROOT_DIR ++ "/b.txt", .file [1]),
   (ROOT_DIR ++ "/A", .dir 0), (ROOT_DIR ++ "/a.txt", .file [2, 3])]

/-- The listing `listFiles` returns for `exampleFs`. -/
def exampleListing : Listing :=
  (listFiles exampleFs "").getD
    { name := "", path := "", type := .file, size := 0, extension := none,
      children := none }

/-- The children of `exampleListing`. -/
def exampleChildren : List Entry := exampleListing.children.getD []

/-- The buffer of the C9 witness: one delimiter followed by a complete part
(headers, CRLF CRLF, body) and no further delimiter. -/
def c9Buffer : List Nat :=
  strBytes "--XYZ\r\nContent-Disposition: form-data; name=\"q\"\r\n\r\nbody"

/-! # Theorems -/

/-! ## Path confinement (claims C1, C2) -/

/-- **C2** (code bug). The input `\..\../files2/secret` contains `../`
segments, yet `resolvePath` neither fails with `AccessDenied` nor returns a
path inside the root: the overlapping `\..\` / `\../` occurrences defeat the
non-overlapping global replace in `sanitizePath` (leaving `../files2/secret`),
and the resulting sibling path `/app/server/files2/secret` passes the bare
`startsWith(ROOT_DIR)` check while denoting a location outside the root. -/
theorem resolvePath_escape_eval :
    resolvePath "\\..\\../files2/secret" = some "/app/server/files2/secret"
  ∧ atOrBelowRoot "/app/server/files2/secret" = false := by
  constructor
  · rfl
  · rfl

/-- **C1** (code bug). `deleteFile` succeeds on the traversal input of
`resolvePath_escape_eval` (given the sibling file exists) and echoes that
input as the `path` of its result; re-resolving this result path yields
`/app/server/files2/secret`, which is not at or below the root — violating
the invariant that every returned `path` re-resolves to a location at or
below the root. -/
theorem deleteFile_result_path_escapes_eval :
    (deleteFile escapeFs "\\..\\../files2/secret").map Prod.snd =
      some { path := "\\..\\../files2/secret", type := "file" }
  ∧ resolvePath "\\..\\../files2/secret" = some "/app/server/files2/secret"
  ∧ atOrBelowRoot "/app/server/files2/secret" = false := by
  refine ⟨rfl, rfl, rfl⟩

/-! ## Multipart example (claim C5) -/

/-- **C5**: decoding the example buffer yields `fields = {path: "docs"}` and
a single file part `files` / `a.txt` with the default content type (none is
declared), payload `hello`, size 5. -/
theorem parseMultipart_example_eval :
    parseMultipart c5Buffer "XYZ" =
      { fields := [("path", "docs")],
        files := [{ fieldName := "files", filename := "a.txt",
                    contentType := "application/octet-stream",
                    content := strBytes "hello", size := 5 }] } := by
  rfl

/-! ## Name validation (claims C6, C8) -/

/-- **C6**: `isValidFileName` rejects over-long names, names containing a
control character or one of `< > : " | ? *`, names whose extension-stripped
form (`path.basename(name, path.extname(name))`) case-insensitively matches
a reserved device name, and all-dot names; it rejects the listed examples
and accepts `report_final.pdf`. -/
theorem isValidFileName_spec :
    (∀ s : String, 255 < s.data.length → isValidFileName s = false)
  ∧ (∀ s : String, ∀ c ∈ s.data, isInvalidNameChar c = true →
       isValidFileName s = false)
  ∧ (∀ s : String, isReservedName (basenameExt s (extname s)) = true →
       isValidFileName s = false)
  ∧ (∀ s : String, s.data ≠ [] → (∀ c ∈ s.data, c = '.') →
       isValidFileName s = false)
  ∧ isValidFileName "" = false
  ∧ isValidFileName "CON" = false
  ∧ isValidFileName "con.txt" = false
  ∧ isValidFileName ⟨List.replicate 300 'x'⟩ = false
  ∧ isValidFileName "a<b.txt" = false
  ∧ isValidFileName "..." = false
  ∧ isValidFileName "report_final.pdf" = true := by
  refine ⟨?_, ?_, ?_, ?_, by decide, by decide, by decide, by decide,
          by decide, by decide, by decide⟩
  · intro s h
    simp only [isValidFileName]
    split_ifs with h1 h2 h3 h4 h5 <;> try rfl
    exact absurd (Or.inr h) h2
  · intro s c hc hbad
    simp only [isValidFileName]
    split_ifs with h1 h2 h3 h4 h5 <;> try rfl
    exact absurd (List.any_eq_true.mpr ⟨c, hc, hbad⟩) h3
  · intro s h
    simp only [isValidFileName]
    split_ifs <;> try rfl
  · intro s hne hdots
    simp only [isValidFileName]
    split_ifs with h1 h2 h3 h4 h5 <;> try rfl
    exact absurd (List.all_eq_true.mpr fun c hc => decide_eq_true (hdots c hc)) h5

/-- Witness for `isValidFileName_spec`: its universally quantified clauses
instantiated at concrete names. -/
theorem isValidFileName_spec_witness :
    isValidFileName ⟨List.replicate 256 'a'⟩ = false
  ∧ isValidFileName "a|b" = false
  ∧ isValidFileName "LPT5.log" = false
  ∧ isValidFileName "....." = false :=
  ⟨isValidFileName_spec.1 _ (by decide),
   isValidFileName_spec.2.1 _ '|' (by decide) (by decide),
   isValidFileName_spec.2.2.1 _ (by decide),
   isValidFileName_spec.2.2.2.1 _ (by decide) (by decide)⟩

/-- **C8**: names containing a path separator pass `isValidFileName`
(separators are not in the rejected character class), so a validated rename
target, upload filename, or folder name may denote a multi-segment path. -/
theorem isValidFileName_accepts_separators :
    isValidFileName "a/b" = true ∧ '/' ∈ "a/b".data
  ∧ isValidFileName "../evil" = true
  ∧ isValidFileName "a\\b" = true ∧ '\\' ∈ "a\\b".data := by
  decide

/-! ## Listing order (claim C3)

Transitivity and totality of the relation realised by the sort comparator,
needed to reason about the sorted output. -/

theorem lexNat_eq_iff : ∀ {a b : List Nat}, lexNat a b = .eq ↔ a = b := by
  intro a
  induction a with
  | nil => intro b; cases b <;> simp [lexNat]
  | cons x xs ih =>
    intro b
    cases b with
    | nil => simp [lexNat]
    | cons y ys =>
      simp only [lexNat]
      split_ifs with h1 h2
      · simp; omega
      · simp; omega
      · have hxy : x = y := by omega
        simp [hxy, ih]

theorem lexNat_nil_le (c : List Nat) : lexNat [] c ≠ .gt := by
  cases c <;> simp [lexNat]

theorem lexNat_le_trans :
    ∀ (a b c : List Nat), lexNat a b ≠ .gt → lexNat b c ≠ .gt → lexNat a c ≠ .gt := by
  intro a
  induction a with
  | nil => intro b c _ _; exact lexNat_nil_le c
  | cons x xs ih =>
    intro b c hab hbc
    cases b with
    | nil => simp [lexNat] at hab
    | cons y ys =>
      cases c with
      | nil => simp [lexNat] at hbc
      | cons z zs =>
        simp only [lexNat] at hab hbc ⊢
        by_cases hxy : x < y
        · by_cases hyz : y < z
          · rw [if_pos (show x < z by omega)]
            simp
          · by_cases hzy : z < y
            · rw [if_neg hyz, if_pos hzy] at hbc
              simp at hbc
            · rw [if_pos (show x < z by omega)]
              simp
        · by_cases hyx : y < x
          · rw [if_neg hxy, if_pos hyx] at hab
            simp at hab
          · rw [if_neg hxy, if_neg hyx] at hab
            by_cases hyz : y < z
            · rw [if_pos (show x < z by omega)]
              simp
            · by_cases hzy : z < y
              · rw [if_neg hyz, if_pos hzy] at hbc
                simp at hbc
              · rw [if_neg hyz, if_neg hzy] at hbc
                rw [if_neg (show ¬ x < z by omega), if_neg (show ¬ z < x by omega)]
                exact ih ys zs hab hbc

theorem lexNat_lt_of_lt_of_le :
    ∀ (a b c : List Nat), lexNat a b = .lt → lexNat b c ≠ .gt → lexNat a c = .lt := by
  intro a
  induction a with
  | nil =>
    intro b c hab hbc
    cases b with
    | nil => simp [lexNat] at hab
    | cons y ys =>
      cases c with
      | nil => simp [lexNat] at hbc
      | cons z zs => simp [lexNat]
  | cons x xs ih =>
    intro b c hab hbc
    cases b with
    | nil => simp [lexNat] at hab
    | cons y ys =>
      cases c with
      | nil => simp [lexNat] at hbc
      | cons z zs =>
        simp only [lexNat] at hab hbc ⊢
        by_cases hxy : x < y
        · by_cases hyz : y < z
          · rw [if_pos (show x < z by omega)]
          · by_cases hzy : z < y
            · rw [if_neg hyz, if_pos hzy] at hbc
              simp at hbc
            · rw [if_pos (show x < z by omega)]
        · by_cases hyx : y < x
          · rw [if_neg hxy, if_pos hyx] at hab
            simp at hab
          · rw [if_neg hxy, if_neg hyx] at hab
            by_cases hyz : y < z
            · rw [if_pos (show x < z by omega)]
            · by_cases hzy : z < y
              · rw [if_neg hyz, if_pos hzy] at hbc
                simp at hbc
              · rw [if_neg hyz, if_neg hzy] at hbc
                rw [if_neg (show ¬ x < z by omega), if_neg (show ¬ z < x by omega)]
                exact ih ys zs hab hbc

theorem lexNat_swap : ∀ (a b : List Nat), lexNat b a = (lexNat a b).swap := by
  intro a
  induction a with
  | nil => intro b; cases b <;> simp [lexNat, Ordering.swap]
  | cons x xs ih =>
    intro b
    cases b with
    | nil => simp [lexNat, Ordering.swap]
    | cons y ys =>
      simp only [lexNat]
      by_cases h1 : x < y
      · rw [if_neg (show ¬ y < x by omega), if_pos h1, if_pos h1]
        rfl
      · by_cases h2 : y < x
        · rw [if_pos h2, if_neg h1, if_pos h2]
          rfl
        · rw [if_neg h2, if_neg h1, if_neg h1, if_neg h2]
          exact ih ys

theorem ordering_then_ne_gt {o₁ o₂ : Ordering} :
    o₁.then o₂ ≠ .gt ↔ o₁ = .lt ∨ (o₁ = .eq ∧ o₂ ≠ .gt) := by
  cases o₁ <;> cases o₂ <;> simp [Ordering.then]

theorem collOrd_le_trans {a b c : String}
    (h1 : collOrd a b ≠ .gt) (h2 : collOrd b c ≠ .gt) : collOrd a c ≠ .gt := by
  unfold collOrd at h1 h2 ⊢
  rw [ordering_then_ne_gt] at h1 h2 ⊢
  rcases h1 with h1 | ⟨h1e, h1t⟩
  · rcases h2 with h2 | ⟨h2e, h2t⟩
    · exact Or.inl (lexNat_lt_of_lt_of_le _ _ _ h1 (by rw [h2]; simp))
    · exact Or.inl (by rw [← lexNat_eq_iff.mp h2e]; exact h1)
  · rcases h2 with h2 | ⟨h2e, h2t⟩
    · exact Or.inl (by rw [lexNat_eq_iff.mp h1e]; exact h2)
    · exact Or.inr ⟨by rw [lexNat_eq_iff.mp h1e]; exact h2e,
                    lexNat_le_trans _ _ _ h1t h2t⟩

theorem ordering_then_swap (o₁ o₂ : Ordering) :
    (o₁.then o₂).swap = o₁.swap.then o₂.swap := by
  cases o₁ <;> cases o₂ <;> rfl

theorem collOrd_swap (a b : String) : collOrd b a = (collOrd a b).swap := by
  unfold collOrd
  rw [lexNat_swap (a.data.map collPrimary), lexNat_swap (a.data.map collTertiary),
      ordering_then_swap]

theorem localeCompare_nonpos_iff (a b : String) :
    localeCompare a b ≤ 0 ↔ collOrd a b ≠ .gt := by
  unfold localeCompare
  cases h : collOrd a b <;> simp [h]

instance : IsTrans Entry entryLe := by
  constructor
  intro a b c hab hbc
  unfold entryLe cmpEntries at hab hbc ⊢
  by_cases h1 : a.type = b.type <;> by_cases h2 : b.type = c.type
  · rw [if_pos h1] at hab
    rw [if_pos h2] at hbc
    rw [if_pos (h1.trans h2), localeCompare_nonpos_iff] at *
    exact collOrd_le_trans hab hbc
  · rw [if_neg h2] at hbc
    have hbd : b.type = .directory := by
      by_contra hbd
      rw [if_neg hbd] at hbc
      omega
    rw [if_neg (fun hac => h2 (h1.symm.trans hac)), if_pos (h1.trans hbd)]
    omega
  · rw [if_neg h1] at hab
    have had : a.type = .directory := by
      by_contra had
      rw [if_neg had] at hab
      omega
    rw [if_neg (fun hac => h1 (hac.trans h2.symm)), if_pos had]
    omega
  · rw [if_neg h1] at hab
    rw [if_neg h2] at hbc
    have had : a.type = .directory := by
      by_contra had
      rw [if_neg had] at hab
      omega
    have hbd : b.type = .directory := by
      by_contra hbd
      rw [if_neg hbd] at hbc
      omega
    exact absurd (had.trans hbd.symm) h1

instance : IsTotal Entry entryLe := by
  constructor
  intro a b
  unfold entryLe cmpEntries
  by_cases h : a.type = b.type
  · rw [if_pos h, if_pos h.symm, localeCompare_nonpos_iff, localeCompare_nonpos_iff]
    by_cases hg : collOrd a.name b.name = .gt
    · right
      rw [collOrd_swap, hg]
      simp [Ordering.swap]
    · exact Or.inl hg
  · rw [if_neg h, if_neg (fun hh : b.type = a.type => h hh.symm)]
    by_cases ha : a.type = .directory
    · left
      rw [if_pos ha]
      omega
    · right
      have hb : b.type = .directory := by
        cases hat : a.type <;> cases hbt : b.type <;> simp_all
      rw [if_pos hb]
      omega

/-- **C3** (counterexample): listing a directory containing the two files
`B.txt` and `a.txt` returns them in the order `["a.txt", "B.txt"]`; a
case-sensitive ordinal comparison orders `"B.txt"` strictly before
`"a.txt"` (`B` = 0x42 < `a` = 0x61), so the claimed within-group ordinal
order would demand `["B.txt", "a.txt"]`. The comparator the code uses is
`localeCompare`, which is locale collation, not ordinal. -/
theorem listFiles_not_ordinal_counterexample :
    caseChildren.map Entry.name = ["a.txt", "B.txt"]
  ∧ caseChildren.map Entry.type = [.file, .file]
  ∧ specOrdinalLt "B.txt" "a.txt" = true
  ∧ caseChildren.map Entry.name ≠ ["B.txt", "a.txt"] := by
  refine ⟨by rfl, by rfl, by decide, by decide⟩

/-- **C3** (amended): the children of every directory listing are sorted by
the code's comparator — all directories before all files (second conjunct),
and within the sort relation locale collation on names (lowercase before
uppercase of a later base letter), not ordinal order. -/
theorem listFiles_children_sorted (fs : Fs) (rel : String) (l : Listing)
    (cs : List Entry) (h : listFiles fs rel = some l) (hc : l.children = some cs) :
    List.Sorted entryLe cs
  ∧ cs.Pairwise (fun a b => ¬(a.type ≠ .directory ∧ b.type = .directory)) := by
  unfold listFiles at h
  split at h
  · exact absurd h (by simp)
  next absolutePath hres =>
    split at h
    · exact absurd h (by simp)
    · rw [← Option.some.inj h] at hc
      simp at hc
    next dsize hdir =>
      rw [← Option.some.inj h] at hc
      simp only at hc
      rw [← Option.some.inj hc]
      have hs := List.sorted_insertionSort entryLe (listChildren fs rel absolutePath)
      refine ⟨hs, hs.imp ?_⟩
      intro a b hle hcontra
      obtain ⟨hna, hbd⟩ := hcontra
      unfold entryLe cmpEntries at hle
      rw [if_neg (fun he => hna (he.trans hbd)), if_neg hna] at hle
      omega

/-- Witness for `listFiles_children_sorted`: the spec's example directory
lists as `["A", "a.txt", "b.txt"]`, and the children are sorted. -/
theorem listFiles_children_sorted_witness :
    exampleChildren.map Entry.name = ["A", "a.txt", "b.txt"]
  ∧ List.Sorted entryLe exampleChildren :=
  ⟨by rfl,
   (listFiles_children_sorted exampleFs "" exampleListing exampleChildren
      (by rfl) (by rfl)).1⟩

/-! ## Upload collision (claim C4) -/

theorem digitChar_ne_slash (d : Nat) (hd : d < 10) : Nat.digitChar d ≠ '/' := by
  interval_cases d <;> decide

theorem toDigitsCore_ne_slash :
    ∀ (fuel n : Nat) (ds : List Char), (∀ c ∈ ds, c ≠ '/') →
      ∀ c ∈ Nat.toDigitsCore 10 fuel n ds, c ≠ '/' := by
  intro fuel
  induction fuel with
  | zero => intro n ds hds c hc; exact hds c hc
  | succ f ih =>
    intro n ds hds c hc
    simp only [Nat.toDigitsCore] at hc
    split at hc
    · rcases List.mem_cons.mp hc with hc | hc
      · rw [hc]; exact digitChar_ne_slash _ (Nat.mod_lt _ (by omega))
      · exact hds c hc
    · refine ih _ _ ?_ c hc
      intro x hx
      rcases List.mem_cons.mp hx with hx | hx
      · rw [hx]; exact digitChar_ne_slash _ (Nat.mod_lt _ (by omega))
      · exact hds x hx

theorem natToString_ne_slash (n : Nat) : ∀ c ∈ (toString n : String).data, c ≠ '/' := by
  intro c hc
  exact toDigitsCore_ne_slash (n + 1) n [] (by simp) c hc

theorem lastComponent_ne_slash (p : String) : ∀ c ∈ lastComponent p, c ≠ '/' := by
  intro c hc
  unfold lastComponent at hc
  rw [List.mem_reverse] at hc
  simpa using List.mem_takeWhile_imp hc

theorem extOfComponent_spec (base : List Char) :
    ∀ e, extOfComponent base = e →
      e = "" ∨ ∃ d, 1 ≤ d ∧ d < base.length ∧ e = (⟨base.drop d⟩ : String) := by
  intro e he
  unfold extOfComponent at he
  split at he
  · exact Or.inl he.symm
  · split at he
    · exact Or.inl he.symm
    next k hk =>
      split at he
      · exact Or.inl he.symm
      next hd =>
        right
        have hbase : base ≠ [] := by
          intro h0
          rw [h0] at hk
          simp at hk
        have hlen : 1 ≤ base.length := List.length_pos.mpr hbase
        exact ⟨base.length - 1 - k, by omega, by omega, he.symm⟩

theorem extname_ne_slash (p : String) : ∀ c ∈ (extname p).data, c ≠ '/' := by
  intro c hc
  rcases extOfComponent_spec (lastComponent p) (extname p) rfl with he | ⟨d, _, _, he⟩
  · rw [he] at hc; simp at hc
  · rw [he] at hc
    exact lastComponent_ne_slash p c (List.drop_subset _ _ hc)

theorem basenameExt_ne_slash (p e : String) :
    ∀ c ∈ (basenameExt p e).data, c ≠ '/' := by
  intro c hc
  simp only [basenameExt] at hc
  split at hc
  · exact lastComponent_ne_slash p c (List.take_subset _ _ hc)
  · exact lastComponent_ne_slash p c hc

theorem lastComponent_of_no_slash {p : String} (h : '/' ∉ p.data) :
    lastComponent p = p.data := by
  unfold lastComponent
  have hrev : ∀ c ∈ p.data.reverse, ¬(c = '/') := by
    intro c hc he
    rw [List.mem_reverse] at hc
    exact h (he ▸ hc)
  have h1 : p.data.reverse.dropWhile (· = '/') = p.data.reverse := by
    cases hr : p.data.reverse with
    | nil => rfl
    | cons x xs =>
      rw [List.dropWhile_cons]
      have hx : ¬(x = '/') := hrev x (by rw [hr]; exact List.mem_cons_self x xs)
      simp [hx]
  rw [h1]
  have h2 : p.data.reverse.takeWhile (fun c => c ≠ '/') = p.data.reverse :=
    List.takeWhile_eq_self_iff.mpr (by intro x hx; simpa using hrev x hx)
  rw [h2, List.reverse_reverse]

theorem basenameExt_extname_len {f : String} (h : '/' ∉ f.data) :
    (basenameExt f (extname f)).data.length + (extname f).data.length =
      f.data.length := by
  have hbase : lastComponent f = f.data := lastComponent_of_no_slash h
  rcases extOfComponent_spec (lastComponent f) (extname f) rfl with he | ⟨d, hd1, hd2, he⟩
  · rw [he]
    simp only [basenameExt]
    rw [if_neg (by simp)]
    simp [hbase]
  · simp only [basenameExt]
    rw [he, if_pos ?_]
    · simp only [List.length_take, List.length_drop, hbase]
      rw [hbase] at hd2
      omega
    · refine ⟨?_, ?_, ?_⟩
      · show (lastComponent f).drop d ≠ []
        intro h0
        have := congrArg List.length h0
        rw [List.length_drop] at this
        simp at this
        omega
      · show ((lastComponent f).drop d).isSuffixOf (lastComponent f) = true
        rw [List.isSuffixOf_iff_suffix]
        exact List.drop_suffix _ _
      · intro h0
        have := congrArg List.length h0
        simp only [List.length_drop] at this
        omega

theorem uploadNewFilename_ne (filename : String) (ts : Nat) :
    uploadNewFilename filename ts ≠ filename := by
  intro heq
  by_cases hs : '/' ∈ filename.data
  · have hno : '/' ∉ (uploadNewFilename filename ts).data := by
      unfold uploadNewFilename
      simp only [String.data_append]
      intro hmem
      rcases List.mem_append.mp hmem with hmem | hmem
      · rcases List.mem_append.mp hmem with hmem | hmem
        · rcases List.mem_append.mp hmem with hmem | hmem
          · exact basenameExt_ne_slash _ _ _ hmem rfl
          · simp at hmem
        · exact natToString_ne_slash _ _ hmem rfl
      · exact extname_ne_slash _ _ hmem rfl
    rw [heq] at hno
    exact hno hs
  · have hlen : (uploadNewFilename filename ts).data.length = filename.data.length := by
      rw [heq]
    unfold uploadNewFilename at hlen
    simp only [String.data_append, List.length_append] at hlen
    have hbe := basenameExt_extname_len hs
    have h1 : ("_" : String).data.length = 1 := rfl
    rw [h1] at hlen
    omega

theorem fsGet_fsWrite_self (fs : Fs) (p : String) (c : List Nat) :
    fsGet (fsWrite fs p c) p = some (.file c) := by
  induction fs with
  | nil => simp [fsWrite, fsGet]
  | cons pr rest ih =>
    obtain ⟨q, n⟩ := pr
    unfold fsWrite
    by_cases hq : q = p
    · rw [if_pos hq]
      unfold fsGet
      rw [if_pos hq]
    · rw [if_neg hq]
      unfold fsGet
      rw [if_neg hq]
      exact ih

theorem fsGet_fsWrite_ne (fs : Fs) {p q : String} (c : List Nat) (h : q ≠ p) :
    fsGet (fsWrite fs p c) q = fsGet fs q := by
  induction fs with
  | nil =>
    unfold fsWrite fsGet
    rw [if_neg (fun hh => h hh.symm)]
    rfl
  | cons pr rest ih =>
    obtain ⟨r, n⟩ := pr
    unfold fsWrite
    by_cases hr : r = p
    · rw [if_pos hr]
      unfold fsGet
      rw [if_neg (fun hh : r = q => h (hh ▸ hr)), if_neg (fun hh : r = q => h (hh ▸ hr))]
    · rw [if_neg hr]
      unfold fsGet
      by_cases hrq : r = q
      · rw [if_pos hrq, if_pos hrq]
      · rw [if_neg hrq, if_neg hrq]
        exact ih

theorem append_seg_inj {d x y : String} (h : d ++ "/" ++ x = d ++ "/" ++ y) :
    x = y := by
  have hd := congrArg String.data h
  simp only [String.data_append] at hd
  exact String.ext (List.append_cancel_left hd)

/-- **C4**: uploading a file whose name collides with an existing file in
the (existing) target directory succeeds: the stored name is rewritten to
`<basename>_<timestamp><extension>` (basename and extension taken from the
uploaded filename), the result reports the adjusted name — always distinct
from the uploaded name — and afterwards the colliding file is unchanged and
the new file holds the uploaded bytes. The two `posixJoin` hypotheses
record that joining the resolved directory with each name appends a single
separator (no further normalization), which any sane directory/name pair
satisfies (see the witness). -/
theorem uploadFile_collision (fs : Fs) (filename targetRel : String)
    (content oldContent : List Nat) (ts : Nat) (targetDir : String) (sz : Nat)
    (hvalid : isValidFileName filename = true)
    (hres : resolvePath targetRel = some targetDir)
    (hdir : fsGet fs targetDir = some (.dir sz))
    (hjoin : posixJoin targetDir filename = targetDir ++ "/" ++ filename)
    (hexists : fsGet fs (targetDir ++ "/" ++ filename) = some (.file oldContent))
    (hjoin2 : posixJoin targetDir (uploadNewFilename filename ts) =
      targetDir ++ "/" ++ uploadNewFilename filename ts) :
    ∃ fs' res, uploadFile fs ⟨filename, content⟩ targetRel ts = some (fs', res)
      ∧ res.filename = basenameExt filename (extname filename) ++ "_" ++
          toString ts ++ extname filename
      ∧ res.filename ≠ filename
      ∧ fsGet fs' (targetDir ++ "/" ++ res.filename) = some (.file content)
      ∧ fsGet fs' (targetDir ++ "/" ++ filename) = some (.file oldContent) := by
  have hrun : uploadFile fs ⟨filename, content⟩ targetRel ts =
      some (fsWrite fs (targetDir ++ "/" ++ uploadNewFilename filename ts) content,
            { filename := uploadNewFilename filename ts,
              path := posixJoin targetRel (uploadNewFilename filename ts),
              size := content.length }) := by
    unfold uploadFile
    rw [if_neg (by simp [hvalid])]
    simp only [hres, hdir, hjoin, hjoin2, fsExists, hexists, Option.isSome_some,
      if_true]
  refine ⟨_, _, hrun, rfl, uploadNewFilename_ne filename ts, ?_, ?_⟩
  · exact fsGet_fsWrite_self fs _ content
  · exact (fsGet_fsWrite_ne fs
      (p := targetDir ++ "/" ++ uploadNewFilename filename ts)
      (q := targetDir ++ "/" ++ filename) content
      (fun hh => uploadNewFilename_ne filename ts (append_seg_inj hh).symm)).trans
      hexists

/-- Witness for `uploadFile_collision`: uploading `a.txt` (bytes `[1, 2]`)
into the root, which already holds `a.txt` (bytes `[9]`). -/
theorem uploadFile_collision_witness :
    ∃ fs' res,
      uploadFile [(ROOT_DIR, .dir 0), (ROOT_DIR ++ "/a.txt", .file [9])]
        ⟨"a.txt", [1, 2]⟩ "" 1700000000000 = some (fs', res)
    ∧ res.filename = basenameExt "a.txt" (extname "a.txt") ++ "_" ++
        toString 1700000000000 ++ extname "a.txt"
    ∧ res.filename ≠ "a.txt"
    ∧ fsGet fs' (ROOT_DIR ++ "/" ++ res.filename) = some (.file [1, 2])
    ∧ fsGet fs' (ROOT_DIR ++ "/" ++ "a.txt") = some (.file [9]) :=
  uploadFile_collision [(ROOT_DIR, .dir 0), (ROOT_DIR ++ "/a.txt", .file [9])]
    "a.txt" "" [1, 2] [9] 1700000000000 ROOT_DIR 0
    (by rfl) (by rfl) (by rfl) (by rfl) (by rfl) (by rfl)

/-! ## Decoder termination and trailing parts (claims C9, C10) -/

/-- `idxOfFrom` never finds an occurrence before `start`. -/
theorem idxOfFrom_ge {hay pat : List Nat} {s i : Nat}
    (h : idxOfFrom hay pat s = some i) : s ≤ i := by
  unfold idxOfFrom at h
  cases hfo : firstOccur pat (hay.drop s) with
  | none => rw [hfo] at h; simp at h
  | some j => rw [hfo] at h; simp at h; omega

theorem firstOccur_cons_none {pat : List Nat} {c : Nat} {rest : List Nat}
    (h : firstOccur pat (c :: rest) = none) : firstOccur pat rest = none := by
  unfold firstOccur at h
  split at h
  · simp at h
  · cases hfo : firstOccur pat rest with
    | none => rfl
    | some j => rw [hfo] at h; simp at h

theorem firstOccur_none_drop {pat l : List Nat}
    (h : firstOccur pat l = none) (k : Nat) : firstOccur pat (l.drop k) = none := by
  induction l generalizing k with
  | nil => cases k <;> simpa using h
  | cons c rest ih =>
    cases k with
    | zero => simpa using h
    | succ k' =>
      simp only [List.drop_succ_cons]
      exact ih (firstOccur_cons_none h) k'

/-- If the pattern does not occur at or after `s`, it does not occur at or
after any later start either. -/
theorem idxOfFrom_none_mono {hay pat : List Nat} {s s' : Nat}
    (h : idxOfFrom hay pat s = none) (hs : s ≤ s') :
    idxOfFrom hay pat s' = none := by
  unfold idxOfFrom at h ⊢
  cases hfo : firstOccur pat (hay.drop s) with
  | some j => rw [hfo] at h; simp at h
  | none =>
    have hd : hay.drop s' = (hay.drop s).drop (s' - s) := by
      rw [List.drop_drop]; congr 1; omega
    rw [hd, firstOccur_none_drop hfo]; rfl

/-- Every loop iteration either returns or strictly advances `position`, so
fuel exceeding `buffer.length - position` never runs out. -/
theorem parseMultipartLoop_isSome (buffer bnd : List Nat) :
    ∀ fuel position acc, buffer.length - position < fuel →
      (parseMultipartLoop buffer bnd fuel position acc).isSome = true := by
  intro fuel
  induction fuel with
  | zero => intro position acc h; omega
  | succ f ih =>
    intro position acc h
    simp only [parseMultipartLoop]
    split
    case isTrue hpos =>
      split
      · simp
      next boundaryIndex h1 =>
        split
        · simp
        next newlineIndex h2 =>
          split
          · simp
          next nextBoundaryIndex h3 =>
            have hb1 : position ≤ boundaryIndex := idxOfFrom_ge h1
            have hb2 : boundaryIndex + bnd.length ≤ newlineIndex := idxOfFrom_ge h2
            have hb3 : newlineIndex + 2 ≤ nextBoundaryIndex := idxOfFrom_ge h3
            split
            · exact ih _ _ (by omega)
            next headerEndIndex hh =>
              split
              · exact ih _ _ (by omega)
              next disposition hd =>
                split
                · exact ih _ _ (by omega)
                · split
                  · exact ih _ _ (by omega)
                  next fieldName hf =>
                    split
                    next filename hfn => exact ih _ _ (by omega)
                    next hfn => exact ih _ _ (by omega)
    case isFalse => simp

/-- **C10**: for every byte buffer and boundary, the decoder's scanning loop
terminates within its fuel (so `parseMultipart` returns a fields/files
result and never errors), and a buffer containing no occurrence of the
delimiter `--boundary` decodes to empty fields and files. -/
theorem parseMultipart_total (buffer : List Nat) (boundary : String) :
    (parseMultipartLoop buffer (strBytes ("--" ++ boundary)) (buffer.length + 1) 0
        { fields := [], files := [] }).isSome = true
  ∧ (idxOfFrom buffer (strBytes ("--" ++ boundary)) 0 = none →
      parseMultipart buffer boundary = { fields := [], files := [] }) := by
  constructor
  · exact parseMultipartLoop_isSome buffer _ _ 0 _ (by omega)
  · intro hnone
    unfold parseMultipart
    simp only [parseMultipartLoop]
    split
    · split
      · rfl
      next bi hb => rw [hnone] at hb; exact absurd hb (by simp)
    · rfl

/-- Witness for `parseMultipart_total`: a buffer with no delimiter. -/
theorem parseMultipart_total_witness :
    (parseMultipartLoop [1, 2, 3] (strBytes ("--" ++ "XYZ")) 4 0
        { fields := [], files := [] }).isSome = true
  ∧ parseMultipart [1, 2, 3] "XYZ" = { fields := [], files := [] } :=
  ⟨(parseMultipart_total [1, 2, 3] "XYZ").1,
   (parseMultipart_total [1, 2, 3] "XYZ").2 (by rfl)⟩

/-- **C9**: when the delimiter occurs at `bi` but nowhere later, the
scanning loop returns its accumulated result unchanged — the part following
the final delimiter (complete or not) contributes nothing to the fields or
files of the result, whatever was accumulated from earlier parts. -/
theorem parseMultipart_trailing_part_discarded
    (buffer : List Nat) (boundary : String) (p bi fuel : Nat)
    (acc : MultipartResult)
    (h1 : idxOfFrom buffer (strBytes ("--" ++ boundary)) p = some bi)
    (h2 : idxOfFrom buffer (strBytes ("--" ++ boundary)) (bi + 1) = none) :
    parseMultipartLoop buffer (strBytes ("--" ++ boundary)) (fuel + 1) p acc =
      some acc := by
  simp only [parseMultipartLoop]
  split
  case isFalse => rfl
  case isTrue hpos =>
    split
    · rfl
    next boundaryIndex hb =>
      have hbi : boundaryIndex = bi := by
        rw [h1] at hb; exact (Option.some.inj hb).symm
      split
      · rfl
      next newlineIndex hnl =>
        have hge : boundaryIndex + (strBytes ("--" ++ boundary)).length ≤ newlineIndex :=
          idxOfFrom_ge hnl
        split
        · rfl
        next nextBoundaryIndex hnext =>
          have hcontra : idxOfFrom buffer (strBytes ("--" ++ boundary))
              (newlineIndex + 2) = none :=
            idxOfFrom_none_mono h2 (by omega)
          rw [hcontra] at hnext
          exact absurd hnext (by simp)

/-- Witness for `parseMultipart_trailing_part_discarded`: decoding the
single-delimiter buffer yields the initial (empty) result. -/
theorem parseMultipart_trailing_part_discarded_witness :
    idxOfFrom c9Buffer (strBytes ("--" ++ "XYZ")) 0 = some 0
  ∧ idxOfFrom c9Buffer (strBytes ("--" ++ "XYZ")) 1 = none
  ∧ parseMultipartLoop c9Buffer (strBytes ("--" ++ "XYZ")) (c9Buffer.length + 1) 0
      { fields := [], files := [] } = some { fields := [], files := [] } :=
  ⟨by rfl, by rfl,
   parseMultipart_trailing_part_discarded c9Buffer "XYZ" 0 0 c9Buffer.length
     { fields := [], files := [] } (by rfl) (by rfl)⟩

/-! ## Rename/delete round-trip (claim C7)

Helper lemmas about `dirname`, `childName`, `renamePath` and the
association-list filesystem, leading to the round-trip of `renameFile` /
`deleteFile` with `listFiles`. -/

theorem data_append_seg (d s : String) :
    (d ++ "/" ++ s).data = (d.data ++ ['/']) ++ s.data := by
  rw [String.data_append, String.data_append]

theorem dropWhile_append_all {p : Char → Bool} :
    ∀ (xs ys : List Char), (∀ a ∈ xs, p a = true) →
      (xs ++ ys).dropWhile p = ys.dropWhile p := by
  intro xs
  induction xs with
  | nil => intro ys _; rfl
  | cons x xs ih =>
    intro ys h
    rw [List.cons_append, List.dropWhile_cons, if_pos (h x (List.mem_cons_self x xs))]
    exact ih ys (fun a ha => h a (List.mem_cons_of_mem x ha))

theorem dropWhile_cons_false {p : Char → Bool} {x : Char} (xs : List Char)
    (h : p x = false) : (x :: xs).dropWhile p = x :: xs := by
  rw [List.dropWhile_cons, if_neg (by simp [h])]

theorem dirname_append {D s : String} (h1 : s.data ≠ []) (h2 : '/' ∉ s.data)
    (hD : 2 ≤ D.data.length) : dirname (D ++ "/" ++ s) = D := by
  have hdata : (D ++ "/" ++ s).data = D.data ++ '/' :: s.data := by
    rw [data_append_seg]; simp
  have hrev : (D.data ++ '/' :: s.data).reverse
      = s.data.reverse ++ '/' :: D.data.reverse := by
    simp
  have hv : ((D ++ "/" ++ s).data.reverse.dropWhile (· = '/')).dropWhile (· ≠ '/')
      = '/' :: D.data.reverse := by
    rw [hdata, hrev]
    obtain ⟨x, t, hxt⟩ : ∃ x t, s.data.reverse = x :: t := by
      cases hsr : s.data.reverse with
      | nil => exact absurd (by simpa using hsr) h1
      | cons a b => exact ⟨a, b, rfl⟩
    have hxmem : x ∈ s.data := by
      rw [← List.mem_reverse, hxt]; exact List.mem_cons_self x t
    rw [hxt, List.cons_append,
        dropWhile_cons_false _ (by
          simp only [decide_eq_false_iff_not]
          intro hx; exact h2 (hx ▸ hxmem)),
        ← List.cons_append,
        dropWhile_append_all _ _ (fun a ha => by
          rw [← hxt] at ha
          simp only [decide_eq_true_eq]
          intro hc
          exact h2 (hc ▸ List.mem_reverse.mp ha)),
        dropWhile_cons_false _ (by decide)]
  unfold dirname
  rw [hv]
  rw [if_neg (by rw [hdata]; simp)]
  rw [if_neg (by simp only [List.length_cons, List.length_reverse]; omega)]
  rw [if_neg (by
    rintro ⟨-, hl⟩
    simp only [List.length_cons, List.length_reverse] at hl
    omega)]
  have hlen : ('/' :: D.data.reverse).length - 1 = D.data.length := by
    simp only [List.length_cons, List.length_reverse]
    omega
  rw [hlen, hdata]
  apply String.ext
  exact List.take_left' rfl

theorem resolvePath_startsWith_root {rel p : String} (h : resolvePath rel = some p) :
    ROOT_DIR.data.isPrefixOf p.data = true := by
  unfold resolvePath at h
  split at h
  next hpre => injection h with h'; rw [← h']; exact hpre
  next => cases h

theorem resolvePath_len {rel p : String} (h : resolvePath rel = some p) :
    2 ≤ p.data.length := by
  have hpre := List.isPrefixOf_iff_prefix.mp (resolvePath_startsWith_root h)
  have hle := hpre.length_le
  have hroot : ROOT_DIR.data.length = 17 := rfl
  omega

theorem isValidFileName_ne_nil {s : String} (h : isValidFileName s = true) :
    s.data ≠ [] := by
  intro h0
  unfold isValidFileName at h
  rw [if_pos h0] at h
  cases h

theorem key_ne_of_fsGet_none {fs : Fs} {k : String} (h : fsGet fs k = none) :
    ∀ pr ∈ fs, pr.1 ≠ k := by
  induction fs with
  | nil => intro pr hpr; cases hpr
  | cons hd tl ih =>
    obtain ⟨a, b⟩ := hd
    simp only [fsGet] at h
    by_cases ha : a = k
    · rw [if_pos ha] at h; cases h
    · rw [if_neg ha] at h
      intro pr hpr
      rcases List.mem_cons.mp hpr with hpr | hpr
      · rw [hpr]; exact ha
      · exact ih h pr hpr

theorem fsGet_some_mem {fs : Fs} {k : String} {nd : FsNode}
    (h : fsGet fs k = some nd) : (k, nd) ∈ fs := by
  induction fs with
  | nil => cases h
  | cons hd tl ih =>
    obtain ⟨a, b⟩ := hd
    simp only [fsGet] at h
    by_cases ha : a = k
    · rw [if_pos ha] at h
      subst ha
      injection h with h'
      rw [← h']
      exact List.mem_cons_self _ _
    · rw [if_neg ha] at h
      exact List.mem_cons_of_mem _ (ih h)

theorem fsGet_map_keys (f : String → String) (fs : Fs) (k q : String)
    (h : ∀ pr ∈ fs, (f pr.1 = k ↔ pr.1 = q)) :
    fsGet (fs.map (fun pr => (f pr.1, pr.2))) k = fsGet fs q := by
  induction fs with
  | nil => rfl
  | cons hd tl ih =>
    obtain ⟨a, b⟩ := hd
    have hhd := h (a, b) (List.mem_cons_self _ tl)
    rw [List.map_cons]
    simp only [fsGet]
    by_cases hq : a = q
    · rw [if_pos (hhd.mpr hq), if_pos hq]
    · rw [if_neg (fun hf => hq (hhd.mp hf)), if_neg hq]
      exact ih (fun pr hpr => h pr (List.mem_cons_of_mem _ hpr))

theorem fsGet_filter (fs : Fs) (q : String × FsNode → Bool) (k : String)
    (hk : ∀ nd, q (k, nd) = true) :
    fsGet (fs.filter q) k = fsGet fs k := by
  induction fs with
  | nil => rfl
  | cons hd tl ih =>
    obtain ⟨a, b⟩ := hd
    rw [List.filter_cons]
    by_cases ha : a = k
    · subst ha
      rw [if_pos (hk b)]
      simp [fsGet]
    · by_cases hqa : q (a, b) = true
      · rw [if_pos hqa]
        simp only [fsGet]
        rw [if_neg ha, if_neg ha]
        exact ih
      · rw [if_neg hqa]
        simp only [fsGet]
        rw [if_neg ha]
        exact ih

theorem childName_append {d n : String} (h1 : n.data ≠ []) (h2 : '/' ∉ n.data) :
    childName d (d ++ "/" ++ n) = some n := by
  unfold childName
  rw [data_append_seg]
  rw [if_pos (List.isPrefixOf_iff_prefix.mpr ⟨n.data, rfl⟩)]
  have hdrop : ((d.data ++ ['/']) ++ n.data).drop (d.data.length + 1) = n.data := by
    have hl : (d.data ++ ['/']).length = d.data.length + 1 := by simp
    rw [← hl]
    exact List.drop_left _ _
  rw [hdrop, if_pos ⟨h1, h2⟩]

theorem childName_eq {d k m : String} (h : childName d k = some m) :
    k = d ++ "/" ++ m := by
  unfold childName at h
  split at h
  next hpre =>
    split at h
    next hm =>
      obtain ⟨t, ht⟩ := List.isPrefixOf_iff_prefix.mp hpre
      have hdrop : k.data.drop (d.data.length + 1) = t := by
        rw [← ht]
        have hl : (d.data ++ ['/']).length = d.data.length + 1 := by simp
        rw [← hl]
        exact List.drop_left _ _
      have hmv : m.data = t := by
        have hc := congrArg String.data (Option.some.inj h)
        rw [hdrop] at hc
        exact hc.symm
      apply String.ext
      rw [data_append_seg, ← ht, hmv]
    next => cases h
  next => cases h

theorem mem_readdirNames {fs : Fs} {d n : String} :
    n ∈ readdirNames fs d ↔ ∃ pr ∈ fs, childName d pr.1 = some n := by
  unfold readdirNames
  rw [List.mem_dedup, List.mem_filterMap]

theorem renamePath_self (old new : String) : renamePath old new old = new := by
  unfold renamePath
  rw [if_pos rfl]

theorem renamePath_eq_of_short {old new p k : String}
    (h2 : k.data.length < new.data.length)
    (h : renamePath old new p = k) : p = k := by
  unfold renamePath at h
  split at h
  · exfalso
    rw [h] at h2
    exact absurd h2 (lt_irrefl _)
  · split at h
    · exfalso
      have h' : new.data ++ p.data.drop old.data.length = k.data :=
        congrArg String.data h
      have hlen := congrArg List.length h'
      rw [List.length_append] at hlen
      omega
    · exact h

theorem renamePath_fix_of_short {old new k : String}
    (h1 : k.data.length < old.data.length) :
    renamePath old new k = k := by
  have hne : ¬(k = old) := by
    intro he; rw [he] at h1; exact absurd h1 (lt_irrefl _)
  have hnp : ¬((old.data ++ ['/']).isPrefixOf k.data = true) := by
    intro hpre
    have hl := (List.isPrefixOf_iff_prefix.mp hpre).length_le
    rw [List.length_append, List.length_singleton] at hl
    omega
  unfold renamePath
  rw [if_neg hne, if_neg hnp]

theorem renamePath_eq_new {old new p : String} (hp : p ≠ new)
    (h : renamePath old new p = new) : p = old := by
  unfold renamePath at h
  split at h
  · assumption
  · split at h
    · rename_i hpre
      exfalso
      have h' : new.data ++ p.data.drop old.data.length = new.data :=
        congrArg String.data h
      have h'' : new.data ++ p.data.drop old.data.length = new.data ++ [] := by
        simpa using h'
      have hnil := List.append_cancel_left h''
      have hlen := (List.isPrefixOf_iff_prefix.mp hpre).length_le
      rw [List.length_append, List.length_singleton] at hlen
      have hd := congrArg List.length hnil
      rw [List.length_drop, List.length_nil] at hd
      omega
    · exact absurd h hp

theorem renamePath_map_ne {D c n p : String} (hc : '/' ∉ c.data) (hcn : c ≠ n) :
    renamePath (D ++ "/" ++ c) (D ++ "/" ++ n) p ≠ D ++ "/" ++ c := by
  unfold renamePath
  split
  next heq =>
    intro h
    exact hcn (append_seg_inj h).symm
  next hne0 =>
    split
    next hpre =>
      intro h
      obtain ⟨t, ht⟩ := List.isPrefixOf_iff_prefix.mp hpre
      have h' : (D ++ "/" ++ n).data ++ p.data.drop (D ++ "/" ++ c).data.length
          = (D ++ "/" ++ c).data := congrArg String.data h
      rw [← ht] at h'
      have hdrop : (((D ++ "/" ++ c).data ++ ['/']) ++ t).drop
          (D ++ "/" ++ c).data.length = '/' :: t := by
        rw [List.append_assoc]
        exact List.drop_left _ _
      rw [hdrop] at h'
      rw [data_append_seg, data_append_seg] at h'
      rw [List.append_assoc] at h'
      have hcdata := List.append_cancel_left h'
      refine hc ?_
      rw [← hcdata]
      exact List.mem_append_right _ (List.mem_cons_self _ _)
    next hnpre => exact hne0

theorem listFiles_dir (fs : Fs) (x D : String) (szD : Nat)
    (hx : resolvePath x = some D) (hD : fsGet fs D = some (.dir szD)) :
    listFiles fs x = some
      { name := listEntryName D, path := listRelPath x, type := .directory,
        size := szD, extension := none,
        children := some ((listChildren fs x D).insertionSort entryLe) } := by
  simp only [listFiles, hx, hD]

theorem mem_children_names (fs : Fs) (x D n : String) (nd : FsNode)
    (hmem : n ∈ readdirNames fs D)
    (hf : fsGet fs (posixJoin D n) = some nd) :
    n ∈ ((listChildren fs x D).insertionSort entryLe).map Entry.name := by
  rw [List.mem_map]
  cases nd with
  | dir s =>
    refine ⟨{ name := n, path := posixJoin x n, type := .directory, size := 0,
              extension := none }, ?_, rfl⟩
    rw [List.mem_insertionSort]
    simp only [listChildren, List.mem_filterMap]
    exact ⟨n, hmem, by rw [hf]⟩
  | file ct =>
    refine ⟨{ name := n, path := posixJoin x n, type := .file, size := ct.length,
              extension := some (extname n) }, ?_, rfl⟩
    rw [List.mem_insertionSort]
    simp only [listChildren, List.mem_filterMap]
    exact ⟨n, hmem, by rw [hf]⟩

theorem not_mem_children_names (fs : Fs) (x D c : String)
    (habs : ∀ pr ∈ fs, pr.1 ≠ D ++ "/" ++ c) :
    c ∉ ((listChildren fs x D).insertionSort entryLe).map Entry.name := by
  intro hmem
  rw [List.mem_map] at hmem
  obtain ⟨e, he, hname⟩ := hmem
  rw [List.mem_insertionSort] at he
  simp only [listChildren, List.mem_filterMap] at he
  obtain ⟨n, hn, hfn⟩ := he
  have hnc : n = c := by
    split at hfn
    · cases hfn
    · have h1 := Option.some.inj hfn
      rw [← h1] at hname
      simpa using hname
    · have h1 := Option.some.inj hfn
      rw [← h1] at hname
      simpa using hname
  subst hnc
  obtain ⟨pr, hpr, hch⟩ := mem_readdirNames.mp hn
  exact habs pr hpr (childName_eq hch)

/-- **C7** (counterexample to the claim as stated): the claim quantifies
over every valid new name, but `isValidFileName` accepts names containing
`/`. Renaming `d/c` to the valid name `a/b` succeeds (the target parent
`d/a` exists), yet the subsequent `list("d")` contains the entry neither
under the new name `a/b` (it now lives one level deeper) nor under the old
name `c`. -/
theorem renameFile_sep_newName_not_listed :
    isValidFileName "a/b" = true ∧
    ∃ fs' res l cs, renameFile c7fs "d/c" "a/b" = some (fs', res) ∧
      res.newName = "a/b" ∧
      listFiles fs' "d" = some l ∧ l.children = some cs ∧
      "a/b" ∉ cs.map Entry.name ∧ "c" ∉ cs.map Entry.name := by
  refine ⟨by decide, ?_⟩
  refine ⟨_, _, _, _, rfl, rfl, rfl, rfl, by decide, by decide⟩

/-- **C7** (amended): for a directory `X` resolving to `D` and a child
entry `D ++ "/" ++ c` of `X`, renaming the child to a valid,
separator-free new name succeeds and a subsequent `list(X)` contains the
child under the new name and no longer under the old one; deleting the
child succeeds and a subsequent `list(X)` no longer lists it. The
`posixJoin` hypothesis records that joining `D` with the new name appends
one separator (no further normalization), as in the witness. -/
theorem renameFile_deleteFile_list_roundtrip
    (fs : Fs) (x r c newName D : String) (node : FsNode) (szD : Nat)
    (hx : resolvePath x = some D)
    (hr : resolvePath r = some (D ++ "/" ++ c))
    (hc1 : c.data ≠ []) (hc2 : '/' ∉ c.data)
    (hnode : fsGet fs (D ++ "/" ++ c) = some node)
    (hD : fsGet fs D = some (.dir szD))
    (hvalid : isValidFileName newName = true)
    (hn2 : '/' ∉ newName.data) (hn3 : '\\' ∉ newName.data)
    (hjoin : posixJoin D newName = D ++ "/" ++ newName)
    (hfree : fsGet fs (D ++ "/" ++ newName) = none) :
    (∃ fs' res l cs, renameFile fs r newName = some (fs', res) ∧
        listFiles fs' x = some l ∧ l.children = some cs ∧
        newName ∈ cs.map Entry.name ∧ c ∉ cs.map Entry.name) ∧
    (∃ fs₂ res₂ l₂ cs₂, deleteFile fs r = some (fs₂, res₂) ∧
        listFiles fs₂ x = some l₂ ∧ l₂.children = some cs₂ ∧
        c ∉ cs₂.map Entry.name) := by
  have hn1 : newName.data ≠ [] := isValidFileName_ne_nil hvalid
  have hDlen : 2 ≤ D.data.length := resolvePath_len hx
  have hAlen : (D ++ "/" ++ c).data.length = D.data.length + 1 + c.data.length := by
    rw [data_append_seg, List.length_append, List.length_append, List.length_singleton]
  have hNlen : (D ++ "/" ++ newName).data.length
      = D.data.length + 1 + newName.data.length := by
    rw [data_append_seg, List.length_append, List.length_append, List.length_singleton]
  have hcne : c ≠ newName := by
    intro h
    rw [h] at hnode
    rw [hnode] at hfree
    cases hfree
  have hDneA : D ≠ D ++ "/" ++ c := by
    intro h
    have hlen : D.data.length = (D ++ "/" ++ c).data.length := by rw [← h]
    omega
  have hdirA : dirname (D ++ "/" ++ c) = D := dirname_append hc1 hc2 hDlen
  have hdirN : dirname (D ++ "/" ++ newName) = D := dirname_append hn1 hn2 hDlen
  have hguard : ¬(D ++ "/" ++ c = D ++ "/" ++ newName ∨
      ((D ++ "/" ++ c).data ++ ['/']).isPrefixOf (D ++ "/" ++ newName).data = true) := by
    rintro (h | h)
    · exact hcne (append_seg_inj h)
    · obtain ⟨t, ht⟩ := List.isPrefixOf_iff_prefix.mp h
      rw [data_append_seg, data_append_seg] at ht
      rw [List.append_assoc, List.append_assoc] at ht
      have hcdata := List.append_cancel_left ht
      refine hn2 ?_
      rw [← hcdata]
      simp
  set fsR : Fs :=
    fs.map (fun pr =>
      (renamePath (D ++ "/" ++ c) (D ++ "/" ++ newName) pr.1, pr.2)) with hfsRdef
  have hfsren : fsRename fs (D ++ "/" ++ c) (D ++ "/" ++ newName) = some fsR := by
    unfold fsRename
    rw [if_neg hguard, hdirN, hD]
  have hex : fsExists fs (D ++ "/" ++ c) = true := by
    unfold fsExists
    rw [hnode]
    rfl
  have hexN : fsExists fs (D ++ "/" ++ newName) = false := by
    unfold fsExists
    rw [hfree]
    rfl
  have hren : renameFile fs r newName =
      some (fsR, { oldPath := r, newPath := posixJoin (dirname r) newName,
                   newName := newName }) := by
    simp [renameFile, hr, hex, hvalid, hdirA, hjoin, hexN, hfsren]
  have hgetD' : fsGet fsR D = some (.dir szD) := by
    rw [hfsRdef]
    refine (fsGet_map_keys _ fs D D (fun pr hpr => ?_)).trans hD
    constructor
    · intro hf
      exact renamePath_eq_of_short (by omega) hf
    · intro hp
      rw [hp]
      exact renamePath_fix_of_short (by omega)
  have hgetN' : fsGet fsR (D ++ "/" ++ newName) = some node := by
    rw [hfsRdef]
    refine (fsGet_map_keys _ fs (D ++ "/" ++ newName) (D ++ "/" ++ c)
      (fun pr hpr => ?_)).trans hnode
    constructor
    · intro hf
      exact renamePath_eq_new (key_ne_of_fsGet_none hfree pr hpr) hf
    · intro hp
      rw [hp]
      exact renamePath_self _ _
  have hbind : (D ++ "/" ++ newName, node) ∈ fsR := by
    rw [hfsRdef]
    exact List.mem_map.mpr ⟨(D ++ "/" ++ c, node), fsGet_some_mem hnode,
      by simp [renamePath_self]⟩
  have hmemrd : newName ∈ readdirNames fsR D :=
    mem_readdirNames.mpr ⟨(D ++ "/" ++ newName, node), hbind,
      childName_append hn1 hn2⟩
  have hfN : fsGet fsR (posixJoin D newName) = some node := by
    rw [hjoin]
    exact hgetN'
  have habs : ∀ pr ∈ fsR, pr.1 ≠ D ++ "/" ++ c := by
    rw [hfsRdef]
    intro pr hpr
    obtain ⟨qq, hq, hqe⟩ := List.mem_map.mp hpr
    rw [← hqe]
    exact renamePath_map_ne hc2 hcne
  refine ⟨?_, ?_⟩
  · exact ⟨fsR, _, _, _, hren, listFiles_dir fsR x D szD hx hgetD', rfl,
      mem_children_names fsR x D newName node hmemrd hfN,
      not_mem_children_names fsR x D c habs⟩
  · cases node with
    | dir s =>
      have hkD : ∀ nd : FsNode,
          (fun pr : String × FsNode => !(pr.1 == (D ++ "/" ++ c) ||
            ((D ++ "/" ++ c).data ++ ['/']).isPrefixOf pr.1.data)) (D, nd) = true := by
        intro nd
        have hb1 : (D == (D ++ "/" ++ c)) = false := beq_eq_false_iff_ne.mpr hDneA
        have hb2 : ((D ++ "/" ++ c).data ++ ['/']).isPrefixOf D.data = false := by
          cases hb : ((D ++ "/" ++ c).data ++ ['/']).isPrefixOf D.data
          · rfl
          · exfalso
            have hl := (List.isPrefixOf_iff_prefix.mp hb).length_le
            rw [List.length_append, List.length_singleton] at hl
            omega
        simp only [hb1, hb2, Bool.or_false, Bool.not_false]
      have hfsD2 : fsGet (fs.filter (fun pr => !(pr.1 == (D ++ "/" ++ c) ||
          ((D ++ "/" ++ c).data ++ ['/']).isPrefixOf pr.1.data))) D
          = some (.dir szD) := (fsGet_filter fs _ D hkD).trans hD
      have habs₂ : ∀ pr ∈ fs.filter (fun pr => !(pr.1 == (D ++ "/" ++ c) ||
          ((D ++ "/" ++ c).data ++ ['/']).isPrefixOf pr.1.data)),
          pr.1 ≠ D ++ "/" ++ c := by
        intro pr hpr he
        have hp := (List.mem_filter.mp hpr).2
        simp [he] at hp
      have hdel : deleteFile fs r =
          some (fs.filter (fun pr => !(pr.1 == (D ++ "/" ++ c) ||
            ((D ++ "/" ++ c).data ++ ['/']).isPrefixOf pr.1.data)),
            { path := r, type := "directory" }) := by
        simp only [deleteFile, hr, hnode]
      exact ⟨_, _, _, _, hdel, listFiles_dir _ x D szD hx hfsD2, rfl,
        not_mem_children_names _ x D c habs₂⟩
    | file ct =>
      have hkD : ∀ nd : FsNode,
          (fun pr : String × FsNode => !(pr.1 == (D ++ "/" ++ c))) (D, nd) = true := by
        intro nd
        simp [hDneA]
      have hfsD2 : fsGet (fs.filter (fun pr => !(pr.1 == (D ++ "/" ++ c)))) D
          = some (.dir szD) := (fsGet_filter fs _ D hkD).trans hD
      have habs₂ : ∀ pr ∈ fs.filter (fun pr => !(pr.1 == (D ++ "/" ++ c))),
          pr.1 ≠ D ++ "/" ++ c := by
        intro pr hpr he
        have hp := (List.mem_filter.mp hpr).2
        simp [he] at hp
      have hdel : deleteFile fs r =
          some (fs.filter (fun pr => !(pr.1 == (D ++ "/" ++ c))),
            { path := r, type := "file" }) := by
        simp only [deleteFile, hr, hnode]
      exact ⟨_, _, _, _, hdel, listFiles_dir _ x D szD hx hfsD2, rfl,
        not_mem_children_names _ x D c habs₂⟩

/-- **C7** (witness): renaming `d/c` to `b` in a concrete tree, then
listing `d`, shows the entry under `b` and not under `c`; deleting `d/c`
and listing `d` shows it gone. -/
theorem renameFile_deleteFile_list_roundtrip_witness :
    isValidFileName "b" = true ∧
    ((∃ fs' res l cs, renameFile c7wfs "d/c" "b" = some (fs', res) ∧
        listFiles fs' "d" = some l ∧ l.children = some cs ∧
        "b" ∈ cs.map Entry.name ∧ "c" ∉ cs.map Entry.name) ∧
     (∃ fs₂ res₂ l₂ cs₂, deleteFile c7wfs "d/c" = some (fs₂, res₂) ∧
        listFiles fs₂ "d" = some l₂ ∧ l₂.children = some cs₂ ∧
        "c" ∉ cs₂.map Entry.name)) :=
  ⟨by decide, renameFile_deleteFile_list_roundtrip c7wfs "d" "d/c" "c" "b"
    "/app/server/files/d" (.file [49]) 0 rfl rfl (by decide) (by decide)
    rfl rfl rfl (by decide) (by decide) rfl rfl⟩

